import Mathlib

/-!
Verification of the graphic-statics core of `compas_ags` against its
natural-language specification.

The development shallowly embeds the functions of
`src/compas_ags/ags/graphstatics.py` and `src/compas_ags/ags/constraints.py`.
Exact rational arithmetic models the symbolic row reduction
(`compas.numerical.rref_sympy` converts matrix entries to exact rationals);
real numbers model the floating-point vector geometry where square roots and
inverse trigonometric functions occur.
-/

namespace CompasAgs

/-! ## Connectivity and equilibrium matrices (list-of-rows representation)

Embeds `compas.numerical.connectivity_matrix` and
`compas.numerical.equilibrium_matrix`: for edge `e = (u, v)` the connectivity
matrix `C` has `-1` at column `u` and `+1` at column `v`; the equilibrium
matrix is the vertical stack of `Ci^t * U` and `Ci^t * V` where `Ci` keeps the
free-vertex columns and `U`, `V` are the diagonal matrices of the per-edge
coordinate differences `C * xy`. -/

/-- Entry of the connectivity matrix `C` at row `e = (u, v)` and column `j`:
`+1` when `j` is the head `v`, `-1` when `j` is the tail `u`. -/
def cEntry (K : Type) [Ring K] (e : Nat × Nat) (j : Nat) : K :=
  (if e.2 = j then 1 else 0) - (if e.1 = j then 1 else 0)

/-- Per-edge coordinate difference vectors `uv = C * xy`. -/
def edgeVectors (K : Type) [Ring K] (xy : List (K × K)) (edges : List (Nat × Nat)) :
    List (K × K) :=
  edges.map (fun e =>
    ((xy.getD e.2 (0, 0)).1 - (xy.getD e.1 (0, 0)).1,
     (xy.getD e.2 (0, 0)).2 - (xy.getD e.1 (0, 0)).2))

/-- Equilibrium matrix `E = [Ci^t U ; Ci^t V]` as a list of rows: one row per
free vertex for the x-block, then one row per free vertex for the y-block;
columns are indexed by edges. -/
def equilibrium_matrix (K : Type) [Ring K] (edges : List (Nat × Nat)) (xy : List (K × K))
    (free : List Nat) : List (List K) :=
  let uv := edgeVectors K xy edges
  free.map (fun i => (edges.zip uv).map (fun p => cEntry K p.1 i * p.2.1)) ++
  free.map (fun i => (edges.zip uv).map (fun p => cEntry K p.1 i * p.2.2))

/-! ## Row reduction (pivot columns of the reduced row-echelon form)

Embeds the pivot structure computed by `compas.numerical.rref_sympy` followed
by `compas.numerical.nonpivots`: scanning columns left to right, a column is a
pivot column when some remaining row has a nonzero entry there; that row is
used to eliminate the column from the remaining rows.  The pivot columns of
any reduced row-echelon form arise exactly this way (leftmost-first). -/

/-- Find the first row with a nonzero entry in column `j`; return it together
with the remaining rows. -/
def findPivot (K : Type) [Field K] [DecidableEq K] (j : Nat) :
    List (List K) → Option (List K × List (List K))
  | [] => none
  | r :: rs =>
    if r.getD j 0 ≠ 0 then some (r, rs)
    else
      match findPivot K j rs with
      | none => none
      | some (p, rest) => some (p, r :: rest)

/-- Eliminate column `j` from row `r` using pivot row `p`. -/
def elimRow (K : Type) [Field K] (p : List K) (j : Nat) (r : List K) : List K :=
  let c := r.getD j 0 / p.getD j 0
  List.zipWith (fun a b => a - c * b) r p

/-- Pivot columns of the row echelon form, scanning columns from `j` with the
given fuel (one unit of fuel per column). -/
def pivotColsAux (K : Type) [Field K] [DecidableEq K] :
    Nat → Nat → List (List K) → List Nat
  | 0, _, _ => []
  | fuel + 1, j, rows =>
    match findPivot K j rows with
    | none => pivotColsAux K fuel (j + 1) rows
    | some (p, rest) => j :: pivotColsAux K fuel (j + 1) (rest.map (elimRow K p j))

/-- Pivot columns of the reduced row-echelon form of a matrix with `ncols`
columns. -/
def pivotCols (K : Type) [Field K] [DecidableEq K] (ncols : Nat) (rows : List (List K)) :
    List Nat :=
  pivotColsAux K ncols 0 rows

/-- Embeds `compas.numerical.nonpivots`: the columns of the reduced
row-echelon form that hold no pivot, in increasing order. -/
def nonpivots (K : Type) [Field K] [DecidableEq K] (ncols : Nat) (rows : List (List K)) :
    List Nat :=
  (List.range ncols).filter (fun j => decide (j ∉ pivotCols K ncols rows))

/-- Embeds `compas.numerical.dof`: `(k, m)` with `k` the column count minus
the rank and `m` the row count minus the rank. -/
def dofKM (ncols : Nat) (rows : List (List ℚ)) : Nat × Nat :=
  let r := (pivotCols ℚ ncols rows).length
  (ncols - r, rows.length - r)

/-! ## Form diagram data model

The diagram data structures live in `compas_ags.diagrams` (outside the core
sources); per the specification's external-interface contract the core reads:
vertex coordinates, the `is_fixed` flag, the edge list with a stable
edge-to-index mapping (`uv_index` = position in the edge list, keys mapped by
`key_index` to `0..n-1`), and the per-edge attributes. -/

/-- Per-edge attributes of a form diagram. -/
structure EdgeAttr where
  q : ℝ
  f : ℝ
  l : ℝ
  a : ℝ
  is_edge : Bool
  is_ind : Bool

/-- A form diagram: vertex coordinates (exact rationals), per-vertex fixity
flags, the edge list over vertex indices `0..n-1`, and per-edge attributes
(parallel to the edge list). -/
structure FormDiagram where
  xy : List (ℚ × ℚ)
  is_fixed : List Bool
  edges : List (Nat × Nat)
  attrs : List EdgeAttr

/-- Indices of the non-fixed vertices, ascending (the source computes
`list(set(range(n)) - set(fixed))`). -/
def freeVertices (fd : FormDiagram) : List Nat :=
  (List.range fd.xy.length).filter (fun i => !(fd.is_fixed.getD i false))

/-- Embeds `form_identify_dof`: builds the equilibrium matrix of the form
diagram, returns `(k, m)` from `dof` and the edges at the nonpivot columns of
the reduced row-echelon form of `E`. -/
def form_identify_dof (fd : FormDiagram) : Nat × Nat × List (Nat × Nat) :=
  let free := freeVertices fd
  let E := equilibrium_matrix ℚ fd.edges fd.xy free
  let km := dofKM fd.edges.length E
  let ind := nonpivots ℚ fd.edges.length E
  (km.1, km.2, ind.map (fun i => fd.edges.getD i (0, 0)))

/-- Embeds `form_count_dof`: the same pipeline as `form_identify_dof` but
returning only `(k, m)`, skipping the echelon step. -/
def form_count_dof (fd : FormDiagram) : Nat × Nat :=
  let free := freeVertices fd
  let E := equilibrium_matrix ℚ fd.edges fd.xy free
  dofKM fd.edges.length E

/-- Transpose of a list-of-rows matrix with `ncols` columns. -/
def transposeRows (ncols : Nat) (rows : List (List ℚ)) : List (List ℚ) :=
  (List.range ncols).map (fun j => rows.map (fun r => r.getD j 0))

/-- Spec-side definition for claim C1, following the specification's words:
the edges at the non-pivot columns of the reduced row-echelon form of the
TRANSPOSE of the equilibrium matrix `E`. -/
def independentEdges_specC1 (fd : FormDiagram) : List (Nat × Nat) :=
  let free := freeVertices fd
  let E := equilibrium_matrix ℚ fd.edges fd.xy free
  let Et := transposeRows fd.edges.length E
  (nonpivots ℚ E.length Et).map (fun i => fd.edges.getD i (0, 0))

/-- Spec-side definition for the amended claim C1: the edges at the non-pivot
columns of the reduced row-echelon form of `E` itself (no transpose), in the
natural (increasing) column order. -/
def independentEdges_amendedC1 (fd : FormDiagram) : List (Nat × Nat) :=
  let free := freeVertices fd
  let E := equilibrium_matrix ℚ fd.edges fd.xy free
  (nonpivots ℚ fd.edges.length E).map (fun i => fd.edges.getD i (0, 0))

/-- Concrete counterexample diagram for claim C1: a triangle with two fixed
vertices. -/
def triangleC1 : FormDiagram where
  xy := [(0, 0), (1, 0), (1, 2)]
  is_fixed := [true, true, false]
  edges := [(0, 1), (1, 2), (2, 0)]
  attrs := []

/-! ## Python local-variable semantics of `form_update_from_force_proxy`

The proxy reads the local names `form` and `force` on the right-hand sides of
its first two assignments.  In Python, a name assigned anywhere in a function
body is local to the whole body, so at entry only the parameters `formdata`
and `forcedata` are bound; reading `form` before its assignment raises
`UnboundLocalError`.  The embedding interprets the body statement by
statement over an environment of locals, recording every function call
performed. -/

/-- Local names of `form_update_from_force_proxy`. -/
inductive PyName where
  | formdata
  | forcedata
  | form
  | force
  deriving DecidableEq

/-- Functions called in the proxy body; their semantics stay abstract. -/
inductive PyFn where
  | formFromData
  | forceFromData
  | formUpdateFromForce
  | formToData
  deriving DecidableEq

/-- Expressions of the Python fragment the proxy body uses. -/
inductive PyExpr where
  | var (n : PyName)
  | call1 (f : PyFn) (a : PyExpr)
  | call2 (f : PyFn) (a b : PyExpr)

/-- Statements of the Python fragment: assignment to a local, a bare
expression statement, and return. -/
inductive PyStmt where
  | assign (n : PyName) (e : PyExpr)
  | exprStmt (e : PyExpr)
  | ret (e : PyExpr)

/-- Evaluate an expression over the environment of locals, threading the
trace of calls performed; reading an unbound local fails with that name and
the trace accumulated so far. -/
def evalPyExpr (V : Type) (sem : PyFn → List V → V) (env : PyName → Option V) :
    PyExpr → List PyFn → Except (PyName × List PyFn) (V × List PyFn)
  | .var n, t =>
    match env n with
    | some v => .ok (v, t)
    | none => .error (n, t)
  | .call1 f a, t =>
    match evalPyExpr V sem env a t with
    | .error e => .error e
    | .ok (v, t1) => .ok (sem f [v], t1 ++ [f])
  | .call2 f a b, t =>
    match evalPyExpr V sem env a t with
    | .error e => .error e
    | .ok (v, t1) =>
      match evalPyExpr V sem env b t1 with
      | .error e => .error e
      | .ok (w, t2) => .ok (sem f [v, w], t2 ++ [f])

/-- Run a statement list; the result is the returned value (`none` when the
body falls off the end) together with the trace of calls performed. -/
def runPyStmts (V : Type) (sem : PyFn → List V → V) :
    List PyStmt → (PyName → Option V) → List PyFn →
      Except (PyName × List PyFn) (Option V × List PyFn)
  | [], _, t => .ok (none, t)
  | .assign n e :: rest, env, t =>
    match evalPyExpr V sem env e t with
    | .error err => .error err
    | .ok (v, t1) => runPyStmts V sem rest (fun m => if m = n then some v else env m) t1
  | .exprStmt e :: rest, env, t =>
    match evalPyExpr V sem env e t with
    | .error err => .error err
    | .ok (_, t1) => runPyStmts V sem rest env t1
  | .ret e :: _, env, t =>
    match evalPyExpr V sem env e t with
    | .error err => .error err
    | .ok (v, t1) => .ok (some v, t1)

/-- The body of `form_update_from_force_proxy` statement by statement:
`form = FormDiagram.from_data(form)`, `force = ForceDiagram.from_data(force)`,
`form_update_from_force(form, force)`, `return form.to_data()`. -/
def proxyBody : List PyStmt :=
  [ .assign .form (.call1 .formFromData (.var .form)),
    .assign .force (.call1 .forceFromData (.var .force)),
    .exprStmt (.call2 .formUpdateFromForce (.var .form) (.var .force)),
    .ret (.call1 .formToData (.var .form)) ]

/-- Locals at entry of the proxy: the parameters are bound to the arguments;
`form` and `force` are assigned inside the body, hence local and unbound. -/
def proxyInitEnv (V : Type) (formdataVal forcedataVal : V) : PyName → Option V
  | .formdata => some formdataVal
  | .forcedata => some forcedataVal
  | .form => none
  | .force => none

/-- Embeds `form_update_from_force_proxy` (graphstatics.py lines 81-85). -/
def form_update_from_force_proxy (V : Type) (sem : PyFn → List V → V)
    (formdataVal forcedataVal : V) : Except (PyName × List PyFn) (Option V × List PyFn) :=
  runPyStmts V sem proxyBody (proxyInitEnv V formdataVal forcedataVal) []

/-! ## Constraint collection (`constraints.py`)

`HorizontalFix` and `VerticalFix` keep a reference to the diagram they were
built against; `compute_constraint` reads from it the vertex count (through
`number_of_cols`) and the constrained vertex's index under `key_index`.  The
embedding records exactly these two numbers. -/

/-- A constraint of the collection. -/
inductive Constraint where
  | horizontalFix (vcount : Nat) (idx : Nat)
  | verticalFix (vcount : Nat) (idx : Nat)
  deriving DecidableEq

/-- `AbstractConstraint.number_of_cols`: twice the vertex count of the
constraint's diagram. -/
def numberOfCols : Constraint → Nat
  | .horizontalFix v _ => 2 * v
  | .verticalFix v _ => 2 * v

/-- Row of `width` zeros with a single `1` at column `i` (the
`np.zeros((1, cols))` row with one entry set to `1`). -/
def oneHotRow (width i : Nat) : List ℚ :=
  (List.range width).map (fun j => if j = i then 1 else 0)

/-- The column of the single `1` in the constraint's Jacobian row: the
vertex's x-column for `HorizontalFix`, offset by the vertex count for
`VerticalFix`. -/
def constraintColumn : Constraint → Nat
  | .horizontalFix _ i => i
  | .verticalFix v i => i + v

/-- Embeds `compute_constraint` of `HorizontalFix` and `VerticalFix`: a
one-hot Jacobian row and residual `0.0`. -/
def computeConstraint (c : Constraint) : List ℚ × ℚ :=
  (oneHotRow (numberOfCols c) (constraintColumn c), 0)

/-- Failure modes of `compute_constraints`: `numpy.vstack` raises a
shape-mismatch `ValueError` when a row's width differs from the accumulated
Jacobian's width; reading `constraints[0]` of an empty collection raises
`IndexError`; `inconsistentConstraintError` is the error named by the
specification's taxonomy for constraint sets built against mismatched vertex
indexing (no code path of `constraints.py` produces it). -/
inductive ConstraintError where
  | valueErrorShapeMismatch
  | indexError
  | inconsistentConstraintError
  deriving DecidableEq

/-- `numpy.vstack` of the accumulated Jacobian (of width `width`) and one
more row: defined only when the widths agree. -/
def vstackRow (width : Nat) (jac : List (List ℚ)) (row : List ℚ) :
    Except ConstraintError (List (List ℚ)) :=
  if row.length = width then .ok (jac ++ [row]) else .error .valueErrorShapeMismatch

/-- The stacking loop of `compute_constraints`. -/
def computeConstraintsAux (width : Nat) :
    List (List ℚ) → List ℚ → List Constraint →
      Except ConstraintError (List (List ℚ) × List ℚ)
  | jac, res, [] => .ok (jac, res)
  | jac, res, c :: rest =>
    match vstackRow width jac (computeConstraint c).1 with
    | .error e => .error e
    | .ok jac1 => computeConstraintsAux width jac1 (res ++ [(computeConstraint c).2]) rest

/-- Embeds `ConstraintsCollection.compute_constraints`: the Jacobian starts
as an empty block of width `constraints[0].number_of_cols`, then every
constraint's row and residual are stacked in insertion order. -/
def compute_constraints (cs : List Constraint) :
    Except ConstraintError (List (List ℚ) × List ℚ) :=
  match cs with
  | [] => .error .indexError
  | c0 :: _ => computeConstraintsAux (numberOfCols c0) [] [] cs

/-- The vertex index a constraint fixes. -/
def constraintVertex : Constraint → Nat
  | .horizontalFix _ i => i
  | .verticalFix _ i => i

/-- The vertex count of the diagram a constraint was built against. -/
def constraintVcount : Constraint → Nat
  | .horizontalFix v _ => v
  | .verticalFix v _ => v

/-- Concrete mixed collection for claim C9: two `HorizontalFix` constraints
built against diagrams with 2 and 3 vertices. -/
def mixedConstraintsC9 : List Constraint :=
  [.horizontalFix 2 0, .horizontalFix 3 0]

/-! ## Edge attribute update of `form_update_from_force` (real geometry)

After the geometric relaxation (`update_form_from_force`, a
`compas_ags.ags.core` collaborator) has produced the updated coordinates,
`form_update_from_force` recomputes the attributes of each form edge from
the form edge vector `uv[e]` and its reciprocal force edge vector `_uv[e]`
(graphstatics.py lines 331-353): `l = |uv[e]|`, the force-edge length
`|_uv[e]|`, `q = |_uv[e]| / l`, the angle `a` between the two vectors in
degrees, and the sign branch on `a < 90`. -/

/-- Euclidean norm of a planar vector (one row of
`compas.numerical.normrow`). -/
noncomputable def norm2 (v : ℝ × ℝ) : ℝ := Real.sqrt (v.1 ^ 2 + v.2 ^ 2)

/-- Embeds `compas.geometry.angle_vectors_xy` with `deg=True`: the arccosine
of the clamped cosine of the two vectors, converted to degrees. -/
noncomputable def angle_vectors_xy (u v : ℝ × ℝ) : ℝ :=
  Real.arccos (max (min ((u.1 * v.1 + u.2 * v.2) / (norm2 u * norm2 v)) 1) (-1)) *
    180 / Real.pi

/-- Attributes written on one form edge by `form_update_from_force`. -/
structure FFEdgeAttrs where
  l : ℝ
  a : ℝ
  f : ℝ
  q : ℝ

/-- Embeds the per-edge attribute write of `form_update_from_force`
(graphstatics.py lines 344-353): `l` and `a` are always written; when the
angle is strictly below 90 degrees, `f` is the force-edge length and `q`
stays the length ratio; otherwise both are negated. -/
noncomputable def form_update_from_force_edge (uv uvf : ℝ × ℝ) : FFEdgeAttrs :=
  let l := norm2 uv
  let lf := norm2 uvf
  let q := lf / l
  let a := angle_vectors_xy uv uvf
  if a < 90 then ⟨l, a, lf, q⟩ else ⟨l, a, -lf, -q⟩

/-! ## `form_update_q_from_qind` -/

/-- Default edge attributes, the out-of-range fallback of list indexing. -/
def dummyAttr : EdgeAttr := ⟨0, 0, 0, 0, false, false⟩

/-- Number of edges incident to vertex `i`. -/
def vertexDegree (edges : List (Nat × Nat)) (i : Nat) : Nat :=
  (edges.filter (fun e => e.1 == i || e.2 == i)).length

/-- `form.leaves()`: the vertices of degree 1. -/
def leavesOf (fd : FormDiagram) : List Nat :=
  (List.range fd.xy.length).filter (fun i => vertexDegree fd.edges i == 1)

/-- The non-leaf vertex indices, ascending (the source computes
`list(set(range(vcount)) - set(fixed))` with `fixed = leaves`). -/
def freeNonLeaves (fd : FormDiagram) : List Nat :=
  (List.range fd.xy.length).filter (fun i => !(vertexDegree fd.edges i == 1))

/-- The indices of the edges marked independent (`form.ind()`). -/
def indEdges (fd : FormDiagram) : List Nat :=
  (List.range fd.edges.length).filter (fun e => (fd.attrs.getD e dummyAttr).is_ind)

/-- The dependent edge indices: all the others. -/
def depEdges (fd : FormDiagram) : List Nat :=
  (List.range fd.edges.length).filter (fun e => decide (e ∉ indEdges fd))

/-- Modelled from the spec: `compas_ags.ags.core.update_q_from_qind` is not
among the core sources (only its caller is); per the specification's
force-density propagator contract it solves the dependent sub-block of the
equilibrium condition `E_dep q_dep + E_ind q_ind = 0` for `q_dep` (least
squares through the normal equations when the sub-block is not square) and
overwrites `q` at the dependent indices only, leaving the independent
entries untouched. -/
noncomputable def update_q_from_qind (E : List (List ℝ)) (q : List ℝ)
    (dep ind : List Nat) : List ℝ :=
  let nd := dep.length
  let Ed : Matrix (Fin E.length) (Fin nd) ℝ :=
    Matrix.of fun r c => (E.getD (r : Nat) []).getD (dep.getD (c : Nat) 0) 0
  let Ei : Fin E.length → ℝ :=
    fun r => ind.foldr (fun j s => (E.getD (r : Nat) []).getD j 0 * q.getD j 0 + s) 0
  let A := Ed.transpose * Ed
  let b := Ed.transpose.mulVec fun r => -Ei r
  let sol := (A.det)⁻¹ • A.adjugate.mulVec b
  let solNat : Nat → ℝ := fun c => if h : c < nd then sol ⟨c, h⟩ else 0
  q.mapIdx fun i qi => if i ∈ dep then solNat (dep.indexOf i) else qi

/-- Embeds `form_update_q_from_qind`: rebuilds the equilibrium matrix from
the current diagram state, propagates the force densities from the
independent edges, recomputes lengths and forces, and writes `q`, `f`, `l`
onto the edges with `is_edge = True`. -/
noncomputable def form_update_q_from_qind (fd : FormDiagram) : FormDiagram :=
  let free := freeNonLeaves fd
  let ind := indEdges fd
  let dep := depEdges fd
  let xyR : List (ℝ × ℝ) := fd.xy.map fun p => ((p.1 : ℝ), (p.2 : ℝ))
  let E := equilibrium_matrix ℝ fd.edges xyR free
  let q0 : List ℝ := fd.attrs.map fun a => a.q
  let q := update_q_from_qind E q0 dep ind
  let uv := edgeVectors ℝ xyR fd.edges
  let l := uv.map norm2
  let f := List.zipWith (· * ·) q l
  { fd with
    attrs := fd.attrs.mapIdx fun i a =>
      if a.is_edge then
        { a with q := q.getD i 0, f := f.getD i 0, l := l.getD i 0 }
      else a }

/-- The concrete scenario of claim C7: a triangle with one fixed vertex at
the origin, all three edges structural and independent with `q = 1`. -/
def triangleC7 : FormDiagram where
  xy := [(0, 0), (1, 0), (0, 1)]
  is_fixed := [true, false, false]
  edges := [(0, 1), (1, 2), (2, 0)]
  attrs :=
    [⟨1, 0, 0, 0, true, true⟩, ⟨1, 0, 0, 0, true, true⟩, ⟨1, 0, 0, 0, true, true⟩]

/-! ## `force_update_from_form` (exact linear algebra)

The function reads the form diagram's coordinates, edges and force
densities, builds the force diagram's connectivity `_C` over the edge list
aligned to the form edges, and solves `(_C^t _C) xy = _C^t Q uv` once with
the anchor vertex held as a known, writing the solution onto the force
diagram's vertices. -/

/-- The form-diagram data read by `force_update_from_form`: coordinates,
edges, and the current force densities (one per edge). -/
structure FormDiagramQ where
  xy : List (ℚ × ℚ)
  edges : List (Nat × Nat)
  q : List ℚ

/-- The force-diagram data read and written by `force_update_from_form`.
The diagram classes live outside the core sources; per the specification's
interface contract, `force.ordered_edges(form)` aligns the force edges
one-to-one with their form counterparts, so the embedding stores the edge
list already in that order. -/
structure ForceDiagram where
  xy : List (ℚ × ℚ)
  edges : List (Nat × Nat)
  anchor : Nat
  deriving DecidableEq

/-- Connectivity matrix over `Fin` index types (the sparse build of
`compas.numerical.connectivity_matrix`). -/
def connectivityM (es : List (Nat × Nat)) (n : Nat) :
    Matrix (Fin es.length) (Fin n) ℚ :=
  Matrix.of fun e j => cEntry ℚ (es.get e) (j : Nat)

/-- The normal matrix `_C^t * _C` of the force diagram: the graph Laplacian
of the force connectivity. -/
def forceLaplacian (force : ForceDiagram) :
    Matrix (Fin force.xy.length) (Fin force.xy.length) ℚ :=
  (connectivityM force.edges force.xy.length).transpose *
    connectivityM force.edges force.xy.length

/-- Right-hand side `_C^t * Q * uv` of the reciprocal solve for one
coordinate (selected by `pick`): `Q` is the diagonal matrix of the form
diagram's current force densities and `uv` the form edge vectors. -/
def forceRHS (force : ForceDiagram) (form : FormDiagramQ) (pick : ℚ × ℚ → ℚ) :
    Fin force.xy.length → ℚ :=
  (connectivityM force.edges force.xy.length).transpose.mulVec fun e =>
    form.q.getD (e : Nat) 0 * pick ((edgeVectors ℚ form.xy form.edges).getD (e : Nat) (0, 0))

/-- Substituting the known entries into the square system `A x = b`: the
system with `x known` held at a given value has the same solution set as the
full-size system whose known row is replaced by a unit row (and whose known
right-hand entry is the held value), and the two are singular together. -/
def knownSub (n : Nat) (A : Matrix (Fin n) (Fin n) ℚ) (known : Fin n) :
    Matrix (Fin n) (Fin n) ℚ :=
  Matrix.of fun i j => if i = known then (if j = known then 1 else 0) else A i j

/-- Modelled from the spec: `compas.numerical.spsolve_with_known` (an
external collaborator of the core) solves `A x = b` with the entries of `x`
at the known index held at their given values, and fails when the reduced
system is singular — the failure the specification's taxonomy calls
`UnderdeterminedSystemError`.  The embedding solves the substituted
full-size system by the adjugate. -/
def spsolve_with_known (n : Nat) (A : Matrix (Fin n) (Fin n) ℚ) (b : Fin n → ℚ)
    (x0 : Fin n → ℚ) (known : Fin n) : Option (Fin n → ℚ) :=
  let M := knownSub n A known
  let bh : Fin n → ℚ := fun i => if i = known then x0 known else b i
  if M.det = 0 then none else some ((M.det)⁻¹ • M.adjugate.mulVec bh)

/-- The anchored solve of one coordinate: system matrix `_C^t _C`,
right-hand side `_C^t Q uv` for the picked coordinate, known value the
anchor's current coordinate. -/
def forceSolveCoord (force : ForceDiagram) (form : FormDiagramQ)
    (h : force.anchor < force.xy.length) (pick : ℚ × ℚ → ℚ) :
    Option (Fin force.xy.length → ℚ) :=
  spsolve_with_known force.xy.length (forceLaplacian force) (forceRHS force form pick)
    (fun i => pick (force.xy.getD (i : Nat) (0, 0))) ⟨force.anchor, h⟩

/-- Embeds `force_update_from_form`: a single sparse solve of
`(_C^t _C) xy = _C^t Q uv` with the anchor held as known, the solution
written onto the force diagram's vertices.  The source passes both
coordinate columns to one `spsolve_with_known` call; the embedding solves
the two columns with the same matrix and the same singularity guard. -/
def force_update_from_form (force : ForceDiagram) (form : FormDiagramQ) :
    Option ForceDiagram :=
  if h : force.anchor < force.xy.length then
    (forceSolveCoord force form h Prod.fst).bind fun sx =>
      (forceSolveCoord force form h Prod.snd).map fun sy =>
        { force with xy := List.ofFn fun i : Fin force.xy.length => (sx i, sy i) }
  else none

/-- Two vertices joined by an edge of the list. -/
def adjacentIn (es : List (Nat × Nat)) (i j : Nat) : Prop :=
  (i, j) ∈ es ∨ (j, i) ∈ es

/-- Reachability along the edges of the list: the reflexive-transitive
closure of adjacency. -/
def reachableIn (es : List (Nat × Nat)) (i j : Nat) : Prop :=
  Relation.ReflTransGen (adjacentIn es) i j

/-- Concrete force diagram for the claim C3 witness: one edge, anchored at
vertex 0. -/
def forceW3 : ForceDiagram where
  xy := [(0, 0), (5, 7)]
  edges := [(0, 1)]
  anchor := 0

/-- Concrete form diagram for the claim C3 witness: one edge of length 2
with force density 1. -/
def formW3 : FormDiagramQ where
  xy := [(0, 0), (2, 0)]
  edges := [(0, 1)]
  q := [1]

/-- Concrete force diagram for the claim C4 witness: two vertices and no
edges, so vertex 1 cannot reach the anchor. -/
def forceW4 : ForceDiagram where
  xy := [(0, 0), (3, 4)]
  edges := []
  anchor := 0

/-- Concrete form diagram for the claim C4 witness. -/
def formW4 : FormDiagramQ where
  xy := []
  edges := []
  q := []

end CompasAgs

namespace CompasAgs

/-! ## Theorems -/

/-- Claim C1 (counterexample): on the triangle diagram the independent edges
returned by `form_identify_dof` are not the edges at the non-pivot columns of
the reduced row-echelon form of the transpose of `E`: the code row-reduces
`E` itself. -/
theorem c1_counterexample :
    (form_identify_dof triangleC1).2.2 ≠ independentEdges_specC1 triangleC1 := by
  norm_num [form_identify_dof, independentEdges_specC1, triangleC1, freeVertices,
    equilibrium_matrix, edgeVectors, cEntry, dofKM, pivotCols, pivotColsAux, findPivot,
    elimRow, nonpivots, transposeRows, List.range_succ]

/-- Claim C1 (amended): for every form diagram, the independent edge set
returned by `form_identify_dof` equals the edges at the non-pivot columns of
the reduced row-echelon form of the equilibrium matrix `E` itself (not its
transpose), with the non-pivot columns listed in the natural increasing
column order of the row reduction (leftmost pivot wins). -/
theorem c1_independent_edges_from_rref_of_E (fd : FormDiagram) :
    (form_identify_dof fd).2.2 = independentEdges_amendedC1 fd ∧
      List.Sorted (· < ·)
        (nonpivots ℚ fd.edges.length
          (equilibrium_matrix ℚ fd.edges fd.xy (freeVertices fd))) := by
  constructor
  · rfl
  · exact (List.pairwise_lt_range _).filter _

/-- Claim C6: for every form diagram, the `(k, m)` pair returned by
`form_count_dof` equals the `(k, m)` components returned by
`form_identify_dof` on the same diagram. -/
theorem c6_count_dof_agrees_with_identify_dof (fd : FormDiagram) :
    form_count_dof fd = ((form_identify_dof fd).1, (form_identify_dof fd).2.1) := by
  rfl

/-- Claim C5: for every value type, call semantics and arguments, the
remote-execution entry point `form_update_from_force_proxy` fails by reading
the unbound local `form`, with an empty call trace: no diagram is
constructed, no update is performed, and no updated form data is returned. -/
theorem c5_proxy_reads_unbound_local_form (V : Type) (sem : PyFn → List V → V)
    (formdataVal forcedataVal : V) :
    form_update_from_force_proxy V sem formdataVal forcedataVal =
      .error (.form, []) :=
  rfl

/-- The one-hot row has as many entries as the requested width. -/
theorem oneHotRow_length (width i : Nat) : (oneHotRow width i).length = width := by
  simp [oneHotRow]

/-- When every remaining constraint's row width matches the accumulated
width, the stacking loop appends all rows and residuals in order. -/
theorem computeConstraintsAux_ok (cs : List Constraint) (width : Nat)
    (h : ∀ c ∈ cs, numberOfCols c = width) :
    ∀ jac res, computeConstraintsAux width jac res cs =
      .ok (jac ++ cs.map (fun c => (computeConstraint c).1),
           res ++ cs.map (fun c => (computeConstraint c).2)) := by
  induction cs with
  | nil => intro jac res; simp [computeConstraintsAux]
  | cons c rest ih =>
    intro jac res
    have hc : (computeConstraint c).1.length = width := by
      rw [show (computeConstraint c).1 = oneHotRow (numberOfCols c) (constraintColumn c)
        from rfl, oneHotRow_length, h c (List.mem_cons_self c rest)]
    simp only [computeConstraintsAux, vstackRow, hc, if_true, eq_self_iff_true]
    rw [ih (fun d hd => h d (List.mem_cons_of_mem c hd))]
    simp

/-- When some remaining constraint's row width differs from the accumulated
width, the stacking loop fails with the shape-mismatch error. -/
theorem computeConstraintsAux_error (cs : List Constraint) (width : Nat)
    (h : ∃ c ∈ cs, numberOfCols c ≠ width) :
    ∀ jac res, computeConstraintsAux width jac res cs =
      .error .valueErrorShapeMismatch := by
  induction cs with
  | nil => rcases h with ⟨c, hc, _⟩; cases hc
  | cons c rest ih =>
    intro jac res
    have hrow : (computeConstraint c).1.length = numberOfCols c := by
      rw [show (computeConstraint c).1 = oneHotRow (numberOfCols c) (constraintColumn c)
        from rfl, oneHotRow_length]
    by_cases hcw : numberOfCols c = width
    · have hrest : ∃ d ∈ rest, numberOfCols d ≠ width := by
        rcases h with ⟨d, hd, hdw⟩
        rcases List.mem_cons.mp hd with rfl | hd
        · exact absurd hcw hdw
        · exact ⟨d, hd, hdw⟩
      simp only [computeConstraintsAux, vstackRow, hrow, hcw, if_pos rfl]
      exact ih hrest _ _
    · simp only [computeConstraintsAux, vstackRow, hrow, if_neg hcw]

/-- Claim C8 (amended): for `N ≥ 1` `HorizontalFix`/`VerticalFix`
constraints on distinct valid vertices, all built against diagrams with the
same vertex count, `compute_constraints` returns the Jacobian whose `N` rows
are the constraints' one-hot rows stacked in insertion order (the single `1`
of each row sitting at the constraint's column, which lies inside the row)
together with the residual column of `N` zeros. -/
theorem c8_constraint_assembly (cs : List Constraint) (width : Nat)
    (hne : cs ≠ [])
    (hw : ∀ c ∈ cs, numberOfCols c = width)
    (hvalid : ∀ c ∈ cs, constraintVertex c < constraintVcount c)
    (_hdistinct : (cs.map constraintVertex).Pairwise (· ≠ ·)) :
    compute_constraints cs =
        .ok (cs.map (fun c => oneHotRow width (constraintColumn c)),
          List.replicate cs.length 0) ∧
      (cs.map (fun c => oneHotRow width (constraintColumn c))).length = cs.length ∧
      ∀ c ∈ cs, constraintColumn c < width := by
  refine ⟨?_, by simp, ?_⟩
  · match cs, hne with
    | c0 :: rest, _ =>
      have h0 : numberOfCols c0 = width := hw c0 (List.mem_cons_self c0 rest)
      show computeConstraintsAux (numberOfCols c0) [] [] (c0 :: rest) = _
      rw [h0, computeConstraintsAux_ok (c0 :: rest) width hw]
      congr 1
      simp only [Prod.mk.injEq, List.nil_append]
      constructor
      · exact List.map_congr_left fun c hc => by
          rw [show (computeConstraint c).1 = oneHotRow (numberOfCols c) (constraintColumn c)
            from rfl, hw c hc]
      · rw [show (fun c => (computeConstraint c).2) = (fun _ : Constraint => (0 : ℚ))
          from rfl]
        simp [List.map_const', List.replicate_succ]
  · intro c hc
    have hv := hvalid c hc
    have hcw := hw c hc
    cases c with
    | horizontalFix v i =>
      simp only [constraintVertex, constraintVcount] at hv
      simp only [numberOfCols] at hcw
      simp only [constraintColumn]
      omega
    | verticalFix v i =>
      simp only [constraintVertex, constraintVcount] at hv
      simp only [numberOfCols] at hcw
      simp only [constraintColumn]
      omega

/-- Witness for claim C8: two constraints on distinct vertices of a
three-vertex diagram. -/
theorem c8_constraint_assembly_witness :
    ([Constraint.horizontalFix 3 0, Constraint.verticalFix 3 1] ≠ []) ∧
      (∀ c ∈ [Constraint.horizontalFix 3 0, Constraint.verticalFix 3 1],
        numberOfCols c = 6) ∧
      (∀ c ∈ [Constraint.horizontalFix 3 0, Constraint.verticalFix 3 1],
        constraintVertex c < constraintVcount c) ∧
      (([Constraint.horizontalFix 3 0, Constraint.verticalFix 3 1].map
        constraintVertex).Pairwise (· ≠ ·)) ∧
      (compute_constraints [Constraint.horizontalFix 3 0, Constraint.verticalFix 3 1] =
          .ok ([Constraint.horizontalFix 3 0, Constraint.verticalFix 3 1].map
              (fun c => oneHotRow 6 (constraintColumn c)),
            List.replicate 2 0) ∧
        (([Constraint.horizontalFix 3 0, Constraint.verticalFix 3 1].map
          (fun c => oneHotRow 6 (constraintColumn c))).length = 2) ∧
        ∀ c ∈ [Constraint.horizontalFix 3 0, Constraint.verticalFix 3 1],
          constraintColumn c < 6) :=
  ⟨by decide, by decide, by decide, by decide,
    c8_constraint_assembly _ 6 (by decide) (by decide) (by decide) (by decide)⟩

/-- Claim C8 (counterexample): with `N = 0` constraints the code does not
return an empty Jacobian: reading `constraints[0]` of the empty collection
fails with an index error. -/
theorem c8_counterexample :
    compute_constraints [] = .error .indexError := rfl

/-- Claim C9 (counterexample): on a collection mixing vertex counts 2 and 3,
`compute_constraints` fails with the shape-mismatch error of the row
stacking, not with an `InconsistentConstraintError` (no such error exists in
the code). -/
theorem c9_counterexample :
    compute_constraints mixedConstraintsC9 = .error .valueErrorShapeMismatch ∧
      ¬compute_constraints mixedConstraintsC9 = .error .inconsistentConstraintError := by
  have h : compute_constraints mixedConstraintsC9 = .error .valueErrorShapeMismatch := by
    have : numberOfCols (Constraint.horizontalFix 3 0) ≠
        numberOfCols (Constraint.horizontalFix 2 0) := by decide
    exact computeConstraintsAux_error _ _
      ⟨Constraint.horizontalFix 3 0, by decide, this⟩ _ _
  refine ⟨h, fun hbad => ?_⟩
  rw [h] at hbad
  cases hbad

/-- Claim C9 (amended): if a collection contains constraints built against
diagrams with different vertex counts, `compute_constraints` fails with the
shape-mismatch `ValueError` raised by the row stacking (the code defines no
`InconsistentConstraintError`). -/
theorem c9_mixed_vertex_counts_fail (c0 : Constraint) (cs : List Constraint)
    (h : ∃ c ∈ c0 :: cs, numberOfCols c ≠ numberOfCols c0) :
    compute_constraints (c0 :: cs) = .error .valueErrorShapeMismatch :=
  computeConstraintsAux_error (c0 :: cs) (numberOfCols c0) h [] []

/-- Witness for claim C9 (amended): a horizontal fix against a two-vertex
diagram mixed with a vertical fix against a five-vertex diagram. -/
theorem c9_mixed_vertex_counts_fail_witness :
    (∃ c ∈ [Constraint.horizontalFix 2 0, Constraint.verticalFix 5 1],
        numberOfCols c ≠ numberOfCols (Constraint.horizontalFix 2 0)) ∧
      compute_constraints [Constraint.horizontalFix 2 0, Constraint.verticalFix 5 1] =
        .error .valueErrorShapeMismatch :=
  ⟨by decide, c9_mixed_vertex_counts_fail _ _ (by decide)⟩

/-- A planar vector distinct from the origin has positive Euclidean norm. -/
theorem norm2_pos (v : ℝ × ℝ) (hv : v ≠ 0) : 0 < norm2 v := by
  apply Real.sqrt_pos.mpr
  rcases eq_or_ne v.1 0 with h1 | h1
  · have h2 : v.2 ≠ 0 := by
      intro h2
      exact hv (Prod.ext h1 h2)
    have := pow_pos (abs_pos.mpr h2) 2
    nlinarith [sq_nonneg v.1, sq_abs v.2]
  · nlinarith [sq_nonneg v.2, pow_pos (abs_pos.mpr h1) 2, sq_abs v.1]

/-- Claim C2: for every edge written by `form_update_from_force` with
nonzero form and force edge vectors, the angle branch decides the sign: when
the angle between the form edge vector and its reciprocal force edge vector
is strictly below 90 degrees, the written `f` equals the force-edge length
and both `f` and `q` are positive; otherwise (including at exactly 90
degrees) `f` is the negated force-edge length and both `f` and `q` are
negative. -/
theorem c2_angle_sign_convention (uv uvf : ℝ × ℝ) (hu : uv ≠ 0) (hv : uvf ≠ 0) :
    (angle_vectors_xy uv uvf < 90 →
      (form_update_from_force_edge uv uvf).f = norm2 uvf ∧
      (form_update_from_force_edge uv uvf).q = norm2 uvf / norm2 uv ∧
      0 < (form_update_from_force_edge uv uvf).f ∧
      0 < (form_update_from_force_edge uv uvf).q) ∧
    (90 ≤ angle_vectors_xy uv uvf →
      (form_update_from_force_edge uv uvf).f = -norm2 uvf ∧
      (form_update_from_force_edge uv uvf).q = -(norm2 uvf / norm2 uv) ∧
      (form_update_from_force_edge uv uvf).f < 0 ∧
      (form_update_from_force_edge uv uvf).q < 0) := by
  have hlu := norm2_pos uv hu
  have hlv := norm2_pos uvf hv
  have hq : 0 < norm2 uvf / norm2 uv := div_pos hlv hlu
  constructor
  · intro hlt
    rw [form_update_from_force_edge]
    simp only [if_pos hlt]
    exact ⟨trivial, trivial, hlv, hq⟩
  · intro hge
    rw [form_update_from_force_edge]
    simp only [if_neg (not_lt.mpr hge)]
    exact ⟨trivial, trivial, neg_neg_iff_pos.mpr hlv, neg_neg_iff_pos.mpr hq⟩

/-- Witness for claim C2: perpendicular unit vectors, the boundary case at
exactly 90 degrees. -/
theorem c2_angle_sign_convention_witness :
    (((1 : ℝ), (0 : ℝ)) ≠ (0 : ℝ × ℝ)) ∧ (((0 : ℝ), (1 : ℝ)) ≠ (0 : ℝ × ℝ)) ∧
      ((angle_vectors_xy (1, 0) (0, 1) < 90 →
        (form_update_from_force_edge (1, 0) (0, 1)).f = norm2 (0, 1) ∧
        (form_update_from_force_edge (1, 0) (0, 1)).q = norm2 (0, 1) / norm2 (1, 0) ∧
        0 < (form_update_from_force_edge (1, 0) (0, 1)).f ∧
        0 < (form_update_from_force_edge (1, 0) (0, 1)).q) ∧
      (90 ≤ angle_vectors_xy (1, 0) (0, 1) →
        (form_update_from_force_edge (1, 0) (0, 1)).f = -norm2 (0, 1) ∧
        (form_update_from_force_edge (1, 0) (0, 1)).q =
          -(norm2 (0, 1) / norm2 (1, 0)) ∧
        (form_update_from_force_edge (1, 0) (0, 1)).f < 0 ∧
        (form_update_from_force_edge (1, 0) (0, 1)).q < 0)) :=
  ⟨by simp [Prod.ext_iff], by simp [Prod.ext_iff],
    c2_angle_sign_convention (1, 0) (0, 1) (by simp [Prod.ext_iff])
      (by simp [Prod.ext_iff])⟩

/-- Mapping each element to itself by index is the identity. -/
theorem mapIdx_id_of_eq {α : Type} (l : List α) (f : Nat → α → α)
    (h : ∀ i a, f i a = a) : l.mapIdx f = l := by
  induction l generalizing f with
  | nil => rfl
  | cons a t ih =>
    rw [List.mapIdx_cons, h 0 a, ih (fun i b => f (i + 1) b) (fun i b => h (i + 1) b)]

/-- With an empty dependent set the propagation solve leaves the
force-density vector untouched. -/
theorem update_q_from_qind_nil_dep (E : List (List ℝ)) (q : List ℝ) (ind : List Nat) :
    update_q_from_qind E q [] ind = q := by
  rw [update_q_from_qind]
  exact mapIdx_id_of_eq q _ fun i a => by simp

/-- Indexing into `mapIdx` with an in-range default read. -/
theorem getD_mapIdx {α : Type} (l : List α) (f : Nat → α → α) (i : Nat) (d : α)
    (hi : i < l.length) : (l.mapIdx f).getD i d = f i (l.getD i d) := by
  have hlen : i < (l.mapIdx f).length := by
    rw [List.length_mapIdx]
    exact hi
  rw [List.getD_eq_getElem?_getD, List.getElem?_eq_getElem hlen,
    List.getD_eq_getElem?_getD, List.getElem?_eq_getElem hi]
  simp only [Option.getD_some]
  have hg := List.get_mapIdx l f i hi
  rw [List.get_eq_getElem, List.get_eq_getElem] at hg
  exact hg

/-- Claim C7: on the triangle diagram with all three edges independent and
`q = 1`, `form_update_q_from_qind` leaves every `q` equal to 1 (the
dependent set is empty) and writes `f = l` on every edge. -/
theorem c7_triangle_q_unchanged_f_eq_l :
    (((form_update_q_from_qind triangleC7).attrs.getD 0 dummyAttr).q = 1 ∧
      ((form_update_q_from_qind triangleC7).attrs.getD 1 dummyAttr).q = 1 ∧
      ((form_update_q_from_qind triangleC7).attrs.getD 2 dummyAttr).q = 1) ∧
    (((form_update_q_from_qind triangleC7).attrs.getD 0 dummyAttr).f =
        ((form_update_q_from_qind triangleC7).attrs.getD 0 dummyAttr).l ∧
      ((form_update_q_from_qind triangleC7).attrs.getD 1 dummyAttr).f =
        ((form_update_q_from_qind triangleC7).attrs.getD 1 dummyAttr).l ∧
      ((form_update_q_from_qind triangleC7).attrs.getD 2 dummyAttr).f =
        ((form_update_q_from_qind triangleC7).attrs.getD 2 dummyAttr).l) ∧
    depEdges triangleC7 = [] := by
  have hdep : depEdges triangleC7 = [] := by decide
  refine ⟨?_, ?_, hdep⟩ <;>
  · simp only [form_update_q_from_qind, hdep, update_q_from_qind_nil_dep]
    norm_num [triangleC7, edgeVectors, dummyAttr, getD_mapIdx, List.getD]

/-- Claim C10: `form_update_q_from_qind` writes attributes only onto the
edges with `is_edge = True`; every edge whose `is_edge` attribute is `False`
keeps all its attributes (in particular `q`, `f` and `l`) unchanged. -/
theorem c10_non_edges_unchanged (fd : FormDiagram) (i : Nat)
    (h : (fd.attrs.getD i dummyAttr).is_edge = false) :
    (form_update_q_from_qind fd).attrs.getD i dummyAttr = fd.attrs.getD i dummyAttr := by
  simp only [form_update_q_from_qind]
  rcases Nat.lt_or_ge i fd.attrs.length with hi | hi
  · rw [getD_mapIdx fd.attrs _ i dummyAttr hi]
    have h2 : (fd.attrs[i]?.getD dummyAttr).is_edge = false := by
      simpa [List.getD_eq_getElem?_getD] using h
    simp [h2]
  · rw [List.getD_eq_getElem?_getD, List.getElem?_eq_none
      (by simpa [List.length_mapIdx] using hi : (fd.attrs.mapIdx _).length ≤ i),
      List.getD_eq_getElem?_getD, List.getElem?_eq_none hi]

/-- Solving by the adjugate: when the determinant is nonzero, the adjugate
candidate satisfies the linear system. -/
theorem mulVec_adjugate_solve (n : Nat) (M : Matrix (Fin n) (Fin n) ℚ)
    (h : M.det ≠ 0) (b : Fin n → ℚ) :
    M.mulVec ((M.det)⁻¹ • M.adjugate.mulVec b) = b := by
  rw [Matrix.mulVec_smul, Matrix.mulVec_mulVec, Matrix.mul_adjugate,
    Matrix.smul_mulVec_assoc, Matrix.one_mulVec, smul_smul, inv_mul_cancel₀ h, one_smul]

/-- The substituted matrix applied to a vector reads the vector entry at the
known row. -/
theorem knownSub_mulVec_known (n : Nat) (A : Matrix (Fin n) (Fin n) ℚ)
    (known : Fin n) (v : Fin n → ℚ) :
    (knownSub n A known).mulVec v known = v known := by
  simp only [knownSub, Matrix.mulVec, Matrix.dotProduct, Matrix.of_apply, if_pos rfl]
  rw [Finset.sum_eq_single known]
  · simp
  · intro j _ hj
    simp [hj]
  · intro hk
    exact absurd (Finset.mem_univ known) hk

/-- Away from the known row, the substituted matrix agrees with `A`. -/
theorem knownSub_mulVec_free (n : Nat) (A : Matrix (Fin n) (Fin n) ℚ)
    (known i : Fin n) (hik : i ≠ known) (v : Fin n → ℚ) :
    (knownSub n A known).mulVec v i = A.mulVec v i := by
  simp [knownSub, Matrix.mulVec, Matrix.dotProduct, hik]

/-- Reading an `ofFn` list with a default, in range. -/
theorem getD_ofFn (n : Nat) (f : Fin n → ℚ × ℚ) (j : Nat) (hj : j < n) (d : ℚ × ℚ) :
    (List.ofFn f).getD j d = f ⟨j, hj⟩ := by
  rw [List.getD_eq_getElem?_getD,
    List.getElem?_eq_getElem (by simpa [List.length_ofFn] using hj)]
  simp [List.getElem_ofFn]

/-- When the substituted system is regular, `spsolve_with_known` returns the
adjugate solution of the substituted system. -/
theorem spsolve_with_known_eq_some (n : Nat) (A : Matrix (Fin n) (Fin n) ℚ)
    (b x0 : Fin n → ℚ) (known : Fin n) (hdet : (knownSub n A known).det ≠ 0) :
    spsolve_with_known n A b x0 known =
      some (((knownSub n A known).det)⁻¹ • (knownSub n A known).adjugate.mulVec
        fun i => if i = known then x0 known else b i) := by
  rw [spsolve_with_known]
  simp only [if_neg hdet]

/-- Whatever `spsolve_with_known` returns keeps the known entry at its given
value and satisfies the original system on every other row. -/
theorem spsolve_with_known_spec (n : Nat) (A : Matrix (Fin n) (Fin n) ℚ)
    (b x0 : Fin n → ℚ) (known : Fin n) (sol : Fin n → ℚ)
    (h : spsolve_with_known n A b x0 known = some sol) :
    sol known = x0 known ∧ ∀ i, i ≠ known → A.mulVec sol i = b i := by
  rw [spsolve_with_known] at h
  by_cases hdet : (knownSub n A known).det = 0
  · rw [if_pos hdet] at h
    cases h
  · rw [if_neg hdet] at h
    have hsol := mulVec_adjugate_solve n (knownSub n A known) hdet
      fun i => if i = known then x0 known else b i
    rw [Option.some.injEq] at h
    rw [h] at hsol
    constructor
    · have hk := congrFun hsol known
      rw [knownSub_mulVec_known] at hk
      rw [hk]
      simp
    · intro i hik
      have hfree := knownSub_mulVec_free n A known i hik sol
      have hi := congrFun hsol i
      rw [hfree] at hi
      rw [hi, if_neg hik]

/-- Claim C3: `force_update_from_form` performs a single linear solve of
`(_C^t _C) xy = _C^t Q uv` with the anchor's coordinates substituted as
known values: whenever the substituted system is regular, the update
succeeds, the anchor's coordinates are left unchanged, the written
coordinates satisfy the normal system at every other vertex row in both
coordinates, and they are written onto the force diagram's vertices (edges
and anchor untouched). -/
theorem c3_force_update_is_single_solve (force : ForceDiagram) (form : FormDiagramQ)
    (ha : force.anchor < force.xy.length)
    (hdet : (knownSub force.xy.length (forceLaplacian force) ⟨force.anchor, ha⟩).det ≠ 0) :
    ∃ fr : ForceDiagram,
      force_update_from_form force form = some fr ∧
      fr.edges = force.edges ∧
      fr.anchor = force.anchor ∧
      fr.xy.length = force.xy.length ∧
      fr.xy.getD force.anchor (0, 0) = force.xy.getD force.anchor (0, 0) ∧
      ∀ i : Fin force.xy.length, i ≠ ⟨force.anchor, ha⟩ →
        (forceLaplacian force).mulVec (fun j => (fr.xy.getD (j : Nat) (0, 0)).1) i =
          forceRHS force form Prod.fst i ∧
        (forceLaplacian force).mulVec (fun j => (fr.xy.getD (j : Nat) (0, 0)).2) i =
          forceRHS force form Prod.snd i := by
  obtain ⟨sx, hsx⟩ : ∃ sx, forceSolveCoord force form ha Prod.fst = some sx := by
    rw [forceSolveCoord, spsolve_with_known_eq_some _ _ _ _ _ hdet]
    exact ⟨_, rfl⟩
  obtain ⟨sy, hsy⟩ : ∃ sy, forceSolveCoord force form ha Prod.snd = some sy := by
    rw [forceSolveCoord, spsolve_with_known_eq_some _ _ _ _ _ hdet]
    exact ⟨_, rfl⟩
  have hspecx := spsolve_with_known_spec _ _ _ _ _ sx (by rw [← forceSolveCoord, hsx])
  have hspecy := spsolve_with_known_spec _ _ _ _ _ sy (by rw [← forceSolveCoord, hsy])
  have hupd : force_update_from_form force form =
      some { force with
        xy := List.ofFn fun i : Fin force.xy.length => (sx i, sy i) } := by
    rw [force_update_from_form, dif_pos ha, hsx, hsy]
    rfl
  refine ⟨_, hupd, rfl, rfl, by simp [List.length_ofFn], ?_, ?_⟩
  · rw [show ({ force with
        xy := List.ofFn fun i : Fin force.xy.length => (sx i, sy i) } :
          ForceDiagram).xy = List.ofFn fun i : Fin force.xy.length => (sx i, sy i)
      from rfl]
    rw [getD_ofFn force.xy.length _ force.anchor ha (0, 0)]
    have h1 := hspecx.1
    have h2 := hspecy.1
    rw [Prod.ext_iff]
    exact ⟨h1, h2⟩
  · intro i hik
    have hvx : (fun j : Fin force.xy.length =>
        ((({ force with
          xy := List.ofFn fun i : Fin force.xy.length => (sx i, sy i) } :
          ForceDiagram).xy).getD (j : Nat) (0, 0)).1) = sx := by
      funext j
      show ((List.ofFn fun i : Fin force.xy.length => (sx i, sy i)).getD
        (j : Nat) (0, 0)).1 = sx j
      rw [getD_ofFn force.xy.length _ (j : Nat) j.isLt (0, 0), Fin.eta]
    have hvy : (fun j : Fin force.xy.length =>
        ((({ force with
          xy := List.ofFn fun i : Fin force.xy.length => (sx i, sy i) } :
          ForceDiagram).xy).getD (j : Nat) (0, 0)).2) = sy := by
      funext j
      show ((List.ofFn fun i : Fin force.xy.length => (sx i, sy i)).getD
        (j : Nat) (0, 0)).2 = sy j
      rw [getD_ofFn force.xy.length _ (j : Nat) j.isLt (0, 0), Fin.eta]
    exact ⟨by rw [hvx]; exact hspecx.2 i hik, by rw [hvy]; exact hspecy.2 i hik⟩

/-- Summing a one-hot vertex indicator against a vector picks the entry. -/
theorem sum_ite_nat_coe (nv a : Nat) (ha : a < nv) (x : Fin nv → ℚ) :
    (∑ j : Fin nv, (if a = (j : Nat) then (1 : ℚ) else 0) * x j) = x ⟨a, ha⟩ := by
  rw [Finset.sum_eq_single (⟨a, ha⟩ : Fin nv)]
  · simp
  · intro j _ hj
    have hne : a ≠ (j : Nat) := by
      intro hh
      exact hj (Fin.ext hh.symm)
    simp [hne]
  · intro hmem
    exact absurd (Finset.mem_univ _) hmem

/-- The connectivity matrix applied to a vertex vector computes the per-edge
difference of endpoint values. -/
theorem connectivityM_mulVec_eq (es : List (Nat × Nat)) (nv : Nat) (x : Fin nv → ℚ)
    (e : Fin es.length) (u v : Nat) (he : es.get e = (u, v)) (hu : u < nv) (hv : v < nv) :
    (connectivityM es nv).mulVec x e = x ⟨v, hv⟩ - x ⟨u, hu⟩ := by
  simp only [connectivityM, Matrix.mulVec, Matrix.dotProduct, Matrix.of_apply, cEntry, he,
    sub_mul]
  rw [Finset.sum_sub_distrib, sum_ite_nat_coe nv v hv x, sum_ite_nat_coe nv u hu x]

/-- Quadratic form of the graph Laplacian: it reduces to the dot product of
the edge-difference vector with itself. -/
theorem dotProduct_laplacian_eq (es : List (Nat × Nat)) (nv : Nat) (x : Fin nv → ℚ) :
    Matrix.dotProduct x
        (((connectivityM es nv).transpose * connectivityM es nv).mulVec x) =
      Matrix.dotProduct ((connectivityM es nv).mulVec x)
        ((connectivityM es nv).mulVec x) := by
  rw [← Matrix.mulVec_mulVec, Matrix.dotProduct_mulVec, Matrix.vecMul_transpose]

/-- A rational vector whose dot product with itself vanishes is zero. -/
theorem eq_zero_of_dotProduct_self (m : Nat) (y : Fin m → ℚ)
    (h : Matrix.dotProduct y y = 0) : y = 0 := by
  funext e
  rw [Matrix.dotProduct] at h
  have hz := (Finset.sum_eq_zero_iff_of_nonneg fun j _ => mul_self_nonneg (y j)).mp h e
    (Finset.mem_univ e)
  exact mul_self_eq_zero.mp hz

/-- When all per-edge differences vanish, the vector agrees across every
edge of the list. -/
theorem eq_on_adjacent (es : List (Nat × Nat)) (nv : Nat) (x : Fin nv → ℚ)
    (hC : (connectivityM es nv).mulVec x = 0)
    (a b : Nat) (hadj : adjacentIn es a b) (haa : a < nv) (hbb : b < nv) :
    x ⟨a, haa⟩ = x ⟨b, hbb⟩ := by
  rcases hadj with hmem | hmem
  · obtain ⟨e, he⟩ := List.mem_iff_get.mp hmem
    have h0 := congrFun hC e
    rw [connectivityM_mulVec_eq es nv x e a b he haa hbb] at h0
    have hz : x ⟨b, hbb⟩ - x ⟨a, haa⟩ = 0 := h0
    linarith [sub_eq_zero.mp hz]
  · obtain ⟨e, he⟩ := List.mem_iff_get.mp hmem
    have h0 := congrFun hC e
    rw [connectivityM_mulVec_eq es nv x e b a he hbb haa] at h0
    have hz : x ⟨a, haa⟩ - x ⟨b, hbb⟩ = 0 := h0
    linarith [sub_eq_zero.mp hz]

/-- A vector vanishing at a vertex and constant across edges vanishes on
everything reachable from that vertex. -/
theorem zero_on_reachable (es : List (Nat × Nat)) (nv : Nat) (x : Fin nv → ℚ)
    (hC : (connectivityM es nv).mulVec x = 0)
    (hvalid : ∀ e ∈ es, e.1 < nv ∧ e.2 < nv)
    (a : Nat) (ha : a < nv) (hxa : x ⟨a, ha⟩ = 0) :
    ∀ b, reachableIn es a b → ∀ hb : b < nv, x ⟨b, hb⟩ = 0 := by
  intro b hreach
  induction hreach with
  | refl =>
    intro hb
    exact hxa
  | tail hab hadj ih =>
    intro hc
    rcases hadj with hmem | hmem
    · have hmid := (hvalid _ hmem).1
      have heq := eq_on_adjacent es nv x hC _ _ (Or.inl hmem) hmid hc
      rw [← heq]
      exact ih hmid
    · have hmid := (hvalid _ hmem).2
      have heq := eq_on_adjacent es nv x hC _ _ (Or.inr hmem) hmid hc
      rw [← heq]
      exact ih hmid

/-- The anchored (grounded) Laplacian of the force diagram is singular
exactly when some vertex cannot reach the anchor through the force edges. -/
theorem knownSub_laplacian_det_zero_iff (force : ForceDiagram)
    (ha : force.anchor < force.xy.length)
    (hvalid : ∀ e ∈ force.edges, e.1 < force.xy.length ∧ e.2 < force.xy.length) :
    (knownSub force.xy.length (forceLaplacian force) ⟨force.anchor, ha⟩).det = 0 ↔
      ∃ i, i < force.xy.length ∧ ¬reachableIn force.edges force.anchor i := by
  classical
  constructor
  · intro hdet0
    by_contra hcon
    push_neg at hcon
    obtain ⟨x, hx0, hMx⟩ := Matrix.exists_mulVec_eq_zero_iff.mpr hdet0
    have hxa : x ⟨force.anchor, ha⟩ = 0 := by
      have hk := congrFun hMx ⟨force.anchor, ha⟩
      rw [knownSub_mulVec_known] at hk
      exact hk
    have hAx : ∀ i : Fin force.xy.length, i ≠ ⟨force.anchor, ha⟩ →
        (forceLaplacian force).mulVec x i = 0 := by
      intro i hik
      have hi := congrFun hMx i
      rw [knownSub_mulVec_free _ _ _ _ hik] at hi
      exact hi
    have hquad : Matrix.dotProduct x ((forceLaplacian force).mulVec x) = 0 := by
      rw [Matrix.dotProduct]
      apply Finset.sum_eq_zero
      intro i _
      by_cases hik : i = ⟨force.anchor, ha⟩
      · rw [hik, hxa, zero_mul]
      · rw [hAx i hik, mul_zero]
    have hCx : (connectivityM force.edges force.xy.length).mulVec x = 0 := by
      apply eq_zero_of_dotProduct_self
      rw [← dotProduct_laplacian_eq]
      exact hquad
    have hall : ∀ i : Fin force.xy.length, x i = 0 := by
      intro i
      have hreach := hcon (i : Nat) i.isLt
      have hz := zero_on_reachable _ _ x hCx hvalid force.anchor ha hxa
        (i : Nat) hreach i.isLt
      simpa [Fin.eta] using hz
    exact hx0 (funext hall)
  · rintro ⟨i0, hi0, hnr⟩
    apply Matrix.exists_mulVec_eq_zero_iff.mp
    refine ⟨fun j => if reachableIn force.edges force.anchor (j : Nat) then 0 else 1,
      ?_, ?_⟩
    · intro h0
      have hval := congrFun h0 ⟨i0, hi0⟩
      simp only [if_neg hnr, Pi.zero_apply] at hval
      exact one_ne_zero hval
    · have hCx0 : (connectivityM force.edges force.xy.length).mulVec
          (fun j => if reachableIn force.edges force.anchor (j : Nat) then (0 : ℚ)
            else 1) = 0 := by
        funext e
        have hmem : force.edges.get e ∈ force.edges :=
          List.get_mem force.edges (e : Nat) e.isLt
        have he : force.edges.get e =
            ((force.edges.get e).1, (force.edges.get e).2) := by
          rw [Prod.mk.eta]
        have hu := (hvalid _ hmem).1
        have hv := (hvalid _ hmem).2
        rw [connectivityM_mulVec_eq _ _ _ e _ _ he hu hv]
        have hmem1 : ((force.edges.get e).1, (force.edges.get e).2) ∈ force.edges := by
          rw [← he]
          exact hmem
        have hadj : adjacentIn force.edges (force.edges.get e).1
            (force.edges.get e).2 := Or.inl hmem1
        have hadj2 : adjacentIn force.edges (force.edges.get e).2
            (force.edges.get e).1 := Or.inr hmem1
        by_cases hru : reachableIn force.edges force.anchor (force.edges.get e).1
        · have hrv : reachableIn force.edges force.anchor (force.edges.get e).2 :=
            hru.tail hadj
          rw [if_pos hrv, if_pos hru]
          norm_num
        · have hrv : ¬reachableIn force.edges force.anchor (force.edges.get e).2 :=
            fun hrv => hru (hrv.tail hadj2)
          rw [if_neg hrv, if_neg hru]
          norm_num
      funext i
      by_cases hik : i = ⟨force.anchor, ha⟩
      · rw [hik, knownSub_mulVec_known]
        have hra : reachableIn force.edges force.anchor force.anchor :=
          Relation.ReflTransGen.refl
        simp [hra]
      · rw [knownSub_mulVec_free _ _ _ _ hik]
        show ((connectivityM force.edges force.xy.length).transpose *
          connectivityM force.edges force.xy.length).mulVec _ i = _
        rw [← Matrix.mulVec_mulVec, hCx0, Matrix.mulVec_zero]

/-- Witness for claim C3: a one-edge force diagram anchored at vertex 0;
the solve succeeds and keeps the anchor at its place. -/
theorem c3_force_update_is_single_solve_witness :
    (forceW3.anchor < forceW3.xy.length) ∧
      ∃ fr : ForceDiagram, force_update_from_form forceW3 formW3 = some fr ∧
        fr.xy.getD forceW3.anchor (0, 0) = forceW3.xy.getD forceW3.anchor (0, 0) := by
  have ha : forceW3.anchor < forceW3.xy.length := by decide
  have hdet : (knownSub forceW3.xy.length (forceLaplacian forceW3)
      ⟨forceW3.anchor, ha⟩).det ≠ 0 := by
    intro h0
    obtain ⟨i, hi, hnr⟩ :=
      (knownSub_laplacian_det_zero_iff forceW3 ha (by decide)).mp h0
    apply hnr
    have hi2 : i < 2 := hi
    have hcases : i = 0 ∨ i = 1 := by omega
    rcases hcases with rfl | rfl
    · exact Relation.ReflTransGen.refl
    · exact Relation.ReflTransGen.single (Or.inl (by decide))
  obtain ⟨fr, h1, _, _, _, h5, _⟩ :=
    c3_force_update_is_single_solve forceW3 formW3 ha hdet
  exact ⟨ha, fr, h1, h5⟩

/-- Claim C4: `force_update_from_form` fails exactly when the force
diagram's connectivity does not span all force-diagram vertices, that is,
when some vertex cannot reach the anchor through the force edges. -/
theorem c4_fails_iff_anchor_unreachable (force : ForceDiagram) (form : FormDiagramQ)
    (ha : force.anchor < force.xy.length)
    (hvalid : ∀ e ∈ force.edges, e.1 < force.xy.length ∧ e.2 < force.xy.length) :
    (force_update_from_form force form = none ↔
      ∃ i, i < force.xy.length ∧ ¬reachableIn force.edges force.anchor i) := by
  have hiff : force_update_from_form force form = none ↔
      (knownSub force.xy.length (forceLaplacian force) ⟨force.anchor, ha⟩).det = 0 := by
    rw [force_update_from_form, dif_pos ha]
    by_cases hdet : (knownSub force.xy.length (forceLaplacian force)
        ⟨force.anchor, ha⟩).det = 0
    · simp only [hdet, iff_true]
      rw [forceSolveCoord, spsolve_with_known]
      simp only [if_pos hdet, Option.none_bind]
    · simp only [hdet, iff_false]
      rw [forceSolveCoord, forceSolveCoord, spsolve_with_known_eq_some _ _ _ _ _ hdet,
        spsolve_with_known_eq_some _ _ _ _ _ hdet]
      simp
  rw [hiff, knownSub_laplacian_det_zero_iff force ha hvalid]

/-- Witness for claim C4: a two-vertex force diagram with no edges, anchored
at vertex 0. -/
theorem c4_fails_iff_anchor_unreachable_witness :
    (forceW4.anchor < forceW4.xy.length) ∧
      (∀ e ∈ forceW4.edges, e.1 < forceW4.xy.length ∧ e.2 < forceW4.xy.length) ∧
      (force_update_from_form forceW4 formW4 = none ↔
        ∃ i, i < forceW4.xy.length ∧ ¬reachableIn forceW4.edges forceW4.anchor i) :=
  ⟨by decide, by decide,
    c4_fails_iff_anchor_unreachable forceW4 formW4 (by decide) (by decide)⟩

/-- Witness for claim C10: a diagram with one structural and one auxiliary
edge; the auxiliary edge keeps its attributes. -/
theorem c10_non_edges_unchanged_witness :
    ((FormDiagram.mk [(0, 0), (1, 0)] [true, false] [(0, 1), (1, 0)]
          [⟨1, 2, 3, 4, true, true⟩, ⟨5, 6, 7, 8, false, false⟩]).attrs.getD 1
        dummyAttr).is_edge = false ∧
      (form_update_q_from_qind
          (FormDiagram.mk [(0, 0), (1, 0)] [true, false] [(0, 1), (1, 0)]
            [⟨1, 2, 3, 4, true, true⟩, ⟨5, 6, 7, 8, false, false⟩])).attrs.getD 1
          dummyAttr =
        (FormDiagram.mk [(0, 0), (1, 0)] [true, false] [(0, 1), (1, 0)]
            [⟨1, 2, 3, 4, true, true⟩, ⟨5, 6, 7, 8, false, false⟩]).attrs.getD 1
          dummyAttr :=
  ⟨rfl, c10_non_edges_unchanged _ 1 rfl⟩

end CompasAgs
